import Mathlib

set_option linter.unusedVariables false

/-!
Shallow embedding of the start-list generator (src/src/main.rs).

The program assigns start-time offsets to competitors grouped into time
windows.  It first shuffles each window's competitors, then (unless the
global ceiling spacing is at most the spacing threshold) runs a mutually
recursive "stabilization" that migrates competitors between neighboring
windows, and finally walks the windows assigning integer offsets.

Modelling decisions:
* `isize` becomes `Int`; Rust `/` and `%` on `isize` are truncating, so we
  use `Int.div` / `Int.mod` (T-division) and guard division by zero with an
  `Option` (Rust panics there).
* `f64` arithmetic in `calculate_window_space_exact` is modelled exactly:
  a spacing is kept as an integer fraction `num/den` with positive
  denominator and the `f64` comparisons become cross-multiplication
  comparisons over `Int`; at the integer scales exercised here the `f64`
  comparisons agree with the exact rational ones.
* `thread_rng` is modelled by a deterministic stream of booleans and
  naturals threaded through the computation; `gen_bool p` panics (returns
  `none`) when `p` is outside `[0, 1]`, is constantly `false` at `p ≤ 0`
  and constantly `true` at `p ≥ 1`, and otherwise draws from the stream.
  `SliceRandom::shuffle` (an external crate, contracted in the spec as "a
  uniformly random permutation") is modelled by rng-driven pick-and-remove.
* The mutually recursive stabilization need not terminate, so it takes a
  fuel argument, decremented once per `stabilize_windows` call; `none`
  means the call tree is deeper than the given fuel (or a panic occurred),
  and `∀ fuel, … = none` means genuine non-termination.
-/

inductive Origin where
  | top
  | bottom
  | current
deriving DecidableEq

structure Competitor where
  origin : Origin
  name : String
deriving DecidableEq

structure CompetitorWithOffset where
  competitor : Competitor
  offset : Int
deriving DecidableEq

structure Window where
  duration : Int
  competitors : List Competitor
deriving DecidableEq

/-- Deterministic model of `thread_rng`: two streams and read positions. -/
structure Rng where
  bits : Nat → Bool
  nats : Nat → Nat
  bi : Nat
  ni : Nat

/-- Model of `gen_range(0..n)` (callers only use it with `n > 0`). -/
def Rng.genRange (r : Rng) (n : Nat) : Nat × Rng :=
  (r.nats r.ni % n, ⟨r.bits, r.nats, r.bi, r.ni + 1⟩)

/-- Model of `gen_bool(0.5)`: a fair coin draw. -/
def Rng.coin (r : Rng) : Bool × Rng :=
  (r.bits r.bi, ⟨r.bits, r.nats, r.bi + 1, r.ni⟩)

/-- Model of `gen_bool(num/den)`: panics (`none`) when the probability is
outside `[0,1]` (a zero denominator gives NaN or an infinity, which also
panics), is constantly `false` at `p ≤ 0` and constantly `true` at
`p ≥ 1`, and otherwise draws a Bernoulli sample from the bit stream. -/
def Rng.genBoolFrac (r : Rng) (num den : Int) : Option (Bool × Rng) :=
  if den = 0 then none
  else if (0 < den ∧ (num < 0 ∨ den < num)) ∨ (den < 0 ∧ (0 < num ∨ num < den)) then none
  else
    some (if (0 < den ∧ num ≤ 0) ∨ (den < 0 ∧ 0 ≤ num) then false
      else if (0 < den ∧ den ≤ num) ∨ (den < 0 ∧ num ≤ den) then true
      else r.bits r.bi,
      ⟨r.bits, r.nats, r.bi + 1, r.ni⟩)

/-- The all-zeros random stream, used for concrete runs. -/
def rngZero : Rng := ⟨fun _ => false, fun _ => 0, 0, 0⟩

/-- Rng-driven uniform permutation (model of the `shuffle` contract):
repeatedly draw an index and move that element to the front. -/
def drawPerm : Nat → List Competitor → Rng → List Competitor × Rng
  | 0, l, rng => (l, rng)
  | n+1, l, rng =>
    match l with
    | [] => ([], rng)
    | c0 :: _ =>
      let (j, rng1) := rng.genRange l.length
      let c := l.getD j c0
      let (rest, rng2) := drawPerm n (l.eraseIdx j) rng1
      (c :: rest, rng2)

def shuffleComps (l : List Competitor) (rng : Rng) : List Competitor × Rng :=
  drawPerm l.length l rng

/-- The per-window shuffle loop at the top of `generate_startlist`. -/
def shuffleWindows : List Window → Rng → List Window × Rng
  | [], rng => ([], rng)
  | w :: rest, rng =>
    let (cs, rng1) := shuffleComps w.competitors rng
    let (rest2, rng2) := shuffleWindows rest rng1
    (⟨w.duration, cs⟩ :: rest2, rng2)

/-- `calculate_window_space_exact`: `duration` when the window is empty,
else the exact quotient `duration / count` (the `f64` division), kept as
a fraction with positive denominator. -/
def wspaceExact (d : Int) (c : Int) : Int × Int :=
  if c = 0 then (d, 1) else (d, c)

/-- Exact order on spacing fractions (cross-multiplication; denominators
produced by `wspaceExact` are positive). -/
def fracLt (a b : Int × Int) : Prop := a.1 * b.2 < b.1 * a.2

instance (a b : Int × Int) : Decidable (fracLt a b) := by
  unfold fracLt; infer_instance

/-- Exact equality of spacing fractions. -/
def fracEq (a b : Int × Int) : Prop := a.1 * b.2 = b.1 * a.2

instance (a b : Int × Int) : Decidable (fracEq a b) := by
  unfold fracEq; infer_instance

def windowCount (w : Window) : Int := (w.competitors.length : Int)

def defWindow : Window := ⟨0, []⟩

/-- Which migration `stabilize_window` performs. -/
inductive MoveDir where
  | stay
  | toPrev
  | toNext
  | coinFlip
deriving DecidableEq

/-- The branch structure of `stabilize_window` (src/src/main.rs:179-234):
which move is taken, as a function of the current window spacings. -/
def stabilizeDecision (ws : List Window) (i : Nat) (t : Int) : MoveDir :=
  let wi := ws.getD i defWindow
  if fracLt (wspaceExact wi.duration (windowCount wi)) (t, 1) then
    let curr := wspaceExact wi.duration (windowCount wi)
    if 0 < i ∧ i < ws.length - 1 then
      let wn := ws.getD (i+1) defWindow
      let wp := ws.getD (i-1) defWindow
      let nextS := wspaceExact wn.duration (windowCount wn)
      let prevS := wspaceExact wp.duration (windowCount wp)
      if fracLt curr nextS ∧ fracLt prevS nextS then MoveDir.toNext
      else if fracLt curr prevS ∧ fracLt nextS prevS then MoveDir.toPrev
      else if fracLt curr prevS ∧ fracEq prevS nextS then MoveDir.coinFlip
      else MoveDir.stay
    else if 0 < i ∧
        fracLt curr
          (wspaceExact (ws.getD (i-1) defWindow).duration
            (windowCount (ws.getD (i-1) defWindow))) then
      MoveDir.toPrev
    else if i < ws.length - 1 ∧
        fracLt curr
          (wspaceExact (ws.getD (i+1) defWindow).duration
            (windowCount (ws.getD (i+1) defWindow))) then
      MoveDir.toNext
    else MoveDir.stay
  else MoveDir.stay

/-- The deque surgery of `move_to_prev_window` (src/src/main.rs:141-146):
pop the front of window `i`, re-tag it `Top`, push it onto the back of
window `i-1`.  Popping an empty window panics (`none`). -/
def movePrevSurgery (ws : List Window) (i : Nat) : Option (List Window) :=
  let wi := ws.getD i defWindow
  match wi.competitors with
  | [] => none
  | c :: rest =>
    let ws1 := ws.set i ⟨wi.duration, rest⟩
    let wp := ws1.getD (i-1) defWindow
    some (ws1.set (i-1) ⟨wp.duration, wp.competitors ++ [⟨Origin.top, c.name⟩]⟩)

/-- The deque surgery of `move_to_next_window` (src/src/main.rs:148-154):
pop the back of window `i`, re-tag it `Bottom`, push it onto the front of
window `i+1`. -/
def moveNextSurgery (ws : List Window) (i : Nat) : Option (List Window) :=
  let wi := ws.getD i defWindow
  match wi.competitors.getLast? with
  | none => none
  | some c =>
    let ws1 := ws.set i ⟨wi.duration, wi.competitors.dropLast⟩
    let wn := ws1.getD (i+1) defWindow
    some (ws1.set (i+1) ⟨wn.duration, ⟨Origin.bottom, c.name⟩ :: wn.competitors⟩)

/-- `stabilize_window` (src/src/main.rs:179-234): compute the decision from
the current spacings and perform the corresponding migration.  `next` is
the recursive call to `stabilize_windows` made by `move_to_prev_window` /
`move_to_next_window` right after their surgery. -/
def stabilizeWindow (next : Rng → List Window → Int → Option (List Window × Rng))
    (rng : Rng) (ws : List Window) (i : Nat) (t : Int) :
    Option (List Window × Rng) :=
  match stabilizeDecision ws i t with
  | MoveDir.stay => some (ws, rng)
  | MoveDir.toPrev =>
    match movePrevSurgery ws i with
    | none => none
    | some ws2 => next rng ws2 t
  | MoveDir.toNext =>
    match moveNextSurgery ws i with
    | none => none
    | some ws2 => next rng ws2 t
  | MoveDir.coinFlip =>
    let (b, rng1) := rng.coin
    if b then
      match movePrevSurgery ws i with
      | none => none
      | some ws2 => next rng1 ws2 t
    else
      match moveNextSurgery ws i with
      | none => none
      | some ws2 => next rng1 ws2 t

/-- The `for i in 0..windows.len()` loop of `stabilize_windows`; `n` is the
remaining iteration count and `k` the loop counter (the vector's length is
invariant across migrations, so iterating `ws.length` times is faithful). -/
def stabilizeLoop (next : Rng → List Window → Int → Option (List Window × Rng)) :
    Nat → Rng → List Window → Int → Nat → Nat → Option (List Window × Rng)
  | 0, rng, ws, _, _, _ => some (ws, rng)
  | n + 1, rng, ws, t, r, k =>
    match stabilizeWindow next rng ws ((k + r) % ws.length) t with
    | none => none
    | some (ws1, rng1) => stabilizeLoop next n rng1 ws1 t r (k+1)

/-- `stabilize_windows` (src/src/main.rs:156-161): pick a random starting
offset and run `stabilize_window` over every index.  The fuel bounds the
depth of nested `stabilize_windows` calls; `none` means the nesting is
deeper than the fuel (or a pop panicked). -/
def stabilizeWindows : Nat → Rng → List Window → Int → Option (List Window × Rng)
  | 0, _, _, _ => none
  | f + 1, rng, ws, t =>
    let (r, rng1) := rng.genRange ws.length
    stabilizeLoop (fun rng2 ws2 t2 => stabilizeWindows f rng2 ws2 t2)
      ws.length rng1 ws t r 0

/-- The bottom-anchored pop loop (src/src/main.rs:70-80): pop and assign
while the front is `Bottom`, stepping the cursor by the threshold. -/
def popBottoms : List Competitor → Int → Int →
    List CompetitorWithOffset × List Competitor × Int
  | [], curr, _ => ([], [], curr)
  | c :: cs, curr, t =>
    if c.origin = Origin.bottom then
      let (pairs, rest, curr1) := popBottoms cs (curr + t) t
      (⟨c, curr⟩ :: pairs, rest, curr1)
    else ([], c :: cs, curr)

/-- Helper for the top-anchored pop loop, working on the reversed list so
that the deque's back is the head. -/
def popTopsRev : List Competitor → Int → Int →
    List CompetitorWithOffset × List Competitor × Int
  | [], rev, _ => ([], [], rev)
  | c :: cs, rev, t =>
    if c.origin = Origin.top then
      let (pairs, restRev, rev1) := popTopsRev cs (rev - t) t
      (⟨c, rev⟩ :: pairs, restRev, rev1)
    else ([], c :: cs, rev)

/-- The top-anchored pop loop (src/src/main.rs:82-93): pop and assign from
the back while it is `Top`, stepping the reverse cursor down by the
threshold.  Pairs are produced in pop order (reverse chronological). -/
def popTops (l : List Competitor) (rev t : Int) :
    List CompetitorWithOffset × List Competitor × Int :=
  let (pairs, restRev, rev1) := popTopsRev l.reverse rev t
  (pairs, restRev.reverse, rev1)

/-- Rust `/` and `%` on `isize` (truncating), panicking on zero. -/
def checkedDivMod (a b : Int) : Option (Int × Int) :=
  if b = 0 then none else some (a.tdiv b, a.tmod b)

/-- The unanchored loop (src/src/main.rs:107-124): assign while the origin
is `Current`, drawing the weighted remainder jitter when the top cursor
moved, and silently dropping everything from the first non-`Current`
competitor on (the Rust `break`). -/
def assignCurrents : List Competitor → Int → Int → Int → Int → Bool → Rng →
    Option (List CompetitorWithOffset × Int × Rng)
  | [], curr, _, _, _, _, rng => some ([], curr, rng)
  | c :: cs, curr, spacing, remainder, remaining, jitter, rng =>
    if c.origin = Origin.current then
      match (if jitter then rng.genBoolFrac remainder remaining
             else some (false, rng)) with
      | none => none
      | some (absorb, rng1) =>
        let curr1 := if absorb then curr + 1 else curr
        let remainder1 := if absorb then remainder - 1 else remainder
        let curr2 := curr1 + spacing
        match assignCurrents cs curr2 spacing remainder1 (remaining - 1) jitter rng1 with
        | none => none
        | some (pairs, curr3, rng2) => some (⟨c, curr2⟩ :: pairs, curr3, rng2)
    else some ([], curr, rng)

/-- The offset-assignment loop over windows (src/src/main.rs:68-137),
threading `curr_start` and `windows_curr_start`. -/
def assignLoop : List Window → Int → Rng → Int → Int →
    Option (List CompetitorWithOffset)
  | [], _, _, _, _ => some []
  | w :: rest, t, rng, currStart, winStart =>
    if w.competitors.length = 0 then
      assignLoop rest t rng currStart (winStart + w.duration)
    else
      let (bottomPairs, comps1, curr1) := popBottoms w.competitors currStart t
      let revStart := winStart + w.duration - 1
      let (topPairs, comps2, rev2) := popTops comps1 revStart t
      let remaining : Int := (comps2.length : Int)
      let curr2 := curr1 - t
      let step :=
        if remaining ≠ 0 then
          match checkedDivMod (rev2 + t - curr2) (remaining + 1) with
          | none => none
          | some (spacing, remainder) =>
            assignCurrents comps2 curr2 spacing remainder remaining
              (if rev2 = winStart + w.duration - 1 then false else true) rng
        else some ([], curr2, rng)
      match step with
      | none => none
      | some (curPairs, curr3, rng1) =>
        let curr4 :=
          if rev2 = winStart + w.duration - 1 then
            max (curr3 + t) (winStart + w.duration)
          else winStart + w.duration - 1 + t
        match assignLoop rest t rng1 curr4 (winStart + w.duration) with
        | none => none
        | some tail => some (bottomPairs ++ topPairs ++ curPairs ++ tail)

def assignOffsets (ws : List Window) (t : Int) (rng : Rng) :
    Option (List CompetitorWithOffset) :=
  assignLoop ws t rng 0 0

def totalCount (ws : List Window) : Nat :=
  (ws.map (fun w => w.competitors.length)).sum

def totalCountInt (ws : List Window) : Int := (totalCount ws : Int)

def sumDur (ws : List Window) : Int := (ws.map Window.duration).sum

/-- Rust `isize::div_ceil` (the `int_roundings` feature): truncating
division, bumped when the remainder points past it. -/
def rustDivCeil (a b : Int) : Int :=
  let d := a.tdiv b
  let r := a.tmod b
  if (0 < r ∧ 0 < b) ∨ (r < 0 ∧ b < 0) then d + 1 else d

/-- The stabilization phase of `generate_startlist` (src/src/main.rs:54-63):
skip stabilization when the global ceiling spacing is at most the
threshold (the computed `entire_spacing` is never read afterwards). -/
def stabPhase (fuel : Nat) (rng : Rng) (ws : List Window) (t : Int) :
    Option (List Window × Rng) :=
  if rustDivCeil (sumDur ws) (totalCountInt ws) ≤ t then some (ws, rng)
  else stabilizeWindows fuel rng ws t

/-- `generate_startlist` (src/src/main.rs:34-139).  The `minSpacing`
parameter is carried exactly as in the source, where it is never read. -/
def generateStartlist (fuel : Nat) (rng : Rng) (windows : List Window)
    (spacingThreshold minSpacing : Int) : Option (List CompetitorWithOffset) :=
  let (ws, rng1) := shuffleWindows windows rng
  if totalCountInt ws ≤ 0 then some []
  else
    match stabPhase fuel rng1 ws spacingThreshold with
    | none => none
    | some (ws1, rng2) => assignOffsets ws1 spacingThreshold rng2

/-! ## Basic invariants of the randomizer -/

/-- Each step of `drawPerm` keeps the multiset of competitors. -/
theorem drawPerm_perm (n : Nat) : ∀ (l : List Competitor) (rng : Rng),
    ((drawPerm n l rng).1).Perm l := by
  induction n with
  | zero => intro l rng; simp [drawPerm]
  | succ n ih =>
    intro l rng
    match l with
    | [] => simp [drawPerm]
    | c0 :: l0 =>
      have hlen : 0 < (c0 :: l0).length := by simp
      simp only [drawPerm, Rng.genRange]
      set j := rng.nats rng.ni % (c0 :: l0).length with hj
      have hjlt : j < (c0 :: l0).length := Nat.mod_lt _ hlen
      have hd : (c0 :: l0).getD j c0 = (c0 :: l0)[j] := List.getD_eq_getElem _ _ hjlt
      rw [hd]
      refine List.Perm.trans (List.Perm.cons _ (ih _ _)) ?_
      exact ((List.perm_cons_erase (List.getElem_mem hjlt)).trans
        (List.Perm.cons _ (List.erase_getElem hjlt))).symm

theorem shuffleComps_perm (l : List Competitor) (rng : Rng) :
    ((shuffleComps l rng).1).Perm l :=
  drawPerm_perm l.length l rng

/-- A shuffled window keeps its duration and permutes its competitors. -/
def WinSim (w' w : Window) : Prop :=
  w'.duration = w.duration ∧ w'.competitors.Perm w.competitors

theorem shuffleWindows_sim : ∀ (ws : List Window) (rng : Rng),
    List.Forall₂ WinSim (shuffleWindows ws rng).1 ws := by
  intro ws
  induction ws with
  | nil => intro rng; simp [shuffleWindows]
  | cons w rest ih =>
    intro rng
    simp only [shuffleWindows]
    exact List.Forall₂.cons ⟨rfl, shuffleComps_perm _ _⟩ (ih _)

theorem totalCount_of_sim : ∀ {ws' ws : List Window},
    List.Forall₂ WinSim ws' ws → totalCount ws' = totalCount ws := by
  intro ws' ws h
  induction h with
  | nil => rfl
  | cons hw _ ih =>
    simp only [totalCount, List.map_cons, List.sum_cons] at ih ⊢
    rw [hw.2.length_eq, ih]

theorem sumDur_of_sim : ∀ {ws' ws : List Window},
    List.Forall₂ WinSim ws' ws → sumDur ws' = sumDur ws := by
  intro ws' ws h
  induction h with
  | nil => rfl
  | cons hw _ ih =>
    simp only [sumDur, List.map_cons, List.sum_cons] at ih ⊢
    rw [hw.1, ih]

/-- Every anchor tag in every window is still `Current`. -/
def AllCurrent (ws : List Window) : Prop :=
  ∀ w ∈ ws, ∀ c ∈ w.competitors, c.origin = Origin.current

instance (ws : List Window) : Decidable (AllCurrent ws) := by
  unfold AllCurrent; infer_instance

theorem allCurrent_of_sim : ∀ {ws' ws : List Window},
    List.Forall₂ WinSim ws' ws → AllCurrent ws → AllCurrent ws' := by
  intro ws' ws h hcur
  induction h with
  | nil => exact hcur
  | @cons w' w l' l hw hl ih =>
    intro x hx c hc
    rcases List.mem_cons.mp hx with hx | hx
    · subst hx
      exact hcur w (by simp) c (hw.2.mem_iff.mp hc)
    · exact ih (fun u hu => hcur u (by simp [hu])) x hx c hc

/-! ## Concrete competitors used in witnesses and counterexamples -/

def cmpA : Competitor := ⟨Origin.current, "A"⟩
def cmpB : Competitor := ⟨Origin.current, "B"⟩
def cmpC : Competitor := ⟨Origin.current, "C"⟩
def cmpD : Competitor := ⟨Origin.current, "D"⟩
def cmpE : Competitor := ⟨Origin.current, "E"⟩
def cmpF : Competitor := ⟨Origin.current, "F"⟩

/-- C6: for every input window sequence whose total competitor count is
zero, `generate_startlist` returns the empty list and raises no error
(the early return at src/src/main.rs:50-52, reached after the shuffle,
which preserves each window's competitor count). -/
theorem c6_zero_competitors (ws : List Window) (t m : Int) (fuel : Nat)
    (rng : Rng) (h : totalCount ws = 0) :
    generateStartlist fuel rng ws t m = some [] := by
  rcases hsh : shuffleWindows ws rng with ⟨ws1, rng1⟩
  have hsim := shuffleWindows_sim ws rng
  rw [hsh] at hsim
  have hc : totalCount ws1 = 0 := (totalCount_of_sim hsim).trans h
  have : totalCountInt ws1 ≤ 0 := by simp [totalCountInt, hc]
  simp [generateStartlist, hsh, this]

theorem c6_zero_competitors_witness :
    totalCount [(⟨30, []⟩ : Window)] = 0 ∧
      generateStartlist 0 rngZero [(⟨30, []⟩ : Window)] 5 2 = some [] :=
  ⟨rfl, c6_zero_competitors [⟨30, []⟩] 5 2 0 rngZero rfl⟩

/-! ## Concrete runs refuting or pinning down individual claims -/

/-- C3 (code bug): the `min_spacing` parameter of `generate_startlist` is
never read, so no clamping to the minimum spacing happens.  With one
window of duration 6, four unanchored competitors, spacing threshold 1 and
minimum spacing 2, the unanchored spacing computes to 1 and adjacent
offsets end up 1 apart — strictly less than the configured minimum spacing
2, contradicting the claimed clamp. -/
theorem c3_min_spacing_never_clamped :
    generateStartlist 1 rngZero [⟨6, [cmpA, cmpB, cmpC, cmpD]⟩] 1 2 =
      some [⟨cmpA, 0⟩, ⟨cmpB, 1⟩, ⟨cmpC, 2⟩, ⟨cmpD, 3⟩] ∧
    ((1 : Int) - 0 < 2 ∧ (2 : Int) - 1 < 2 ∧ (3 : Int) - 2 < 2) :=
  ⟨rfl, by decide⟩

/-- C5 counterexample: on the claimed scenario (single window of duration
30, one unanchored competitor, threshold 3, minimum spacing 2) the program
returns offset 14, not the claimed offset 0: the unanchored loop divides
the 35-unit remaining space by count+1 = 2 and places the single
competitor at -3 + 17 = 14. -/
theorem c5_offset_is_14_not_0 :
    generateStartlist 1 rngZero [⟨30, [cmpA]⟩] 3 2 = some [⟨cmpA, 14⟩] ∧
      (14 : Int) ≠ 0 :=
  ⟨rfl, by decide⟩

/-- C5 amended: on the scenario the program returns exactly one pair whose
offset is 14 (for every random stream and any sufficient fuel), and no
division by zero occurs (the checked divisions all succeed, as witnessed
by the `some` result). -/
theorem c5_single_competitor (nm : String) (fuel : Nat) (rng : Rng) :
    generateStartlist (fuel + 1) rng [⟨30, [⟨Origin.current, nm⟩]⟩] 3 2 =
      some [⟨⟨Origin.current, nm⟩, 14⟩] := by
  simp [generateStartlist, shuffleWindows, shuffleComps, drawPerm, Rng.genRange,
    Nat.mod_one, totalCountInt, totalCount, sumDur, stabPhase, rustDivCeil,
    stabilizeWindows, stabilizeLoop, stabilizeWindow, stabilizeDecision,
    wspaceExact, windowCount, fracLt, fracEq, defWindow, assignOffsets,
    assignLoop, popBottoms, popTops, popTopsRev, checkedDivMod, assignCurrents,
    Int.tdiv, Int.tmod]

/-- C9 (code bug): with a first window of duration 30 holding no
competitors and a second window of duration 30 holding one unanchored
competitor (threshold 3, minimum spacing 2), the empty window contributes
no pairs, but the single competitor of the later window receives offset
29, which is smaller than 30, the sum of the durations preceding its
window — the claimed boundary is not respected because `curr_start` is
never advanced past a skipped empty window. -/
theorem c9_boundary_not_respected :
    generateStartlist 1 rngZero [⟨30, []⟩, ⟨30, [cmpA]⟩] 3 2 =
      some [⟨cmpA, 29⟩] ∧ (29 : Int) < 30 :=
  ⟨rfl, by decide⟩

/-- Offsets of the result list are non-decreasing from left to right. -/
def offsetsSorted : List CompetitorWithOffset → Prop
  | [] => True
  | [_] => True
  | a :: b :: l => a.offset ≤ b.offset ∧ offsetsSorted (b :: l)

def offsetsSortedDec : (l : List CompetitorWithOffset) → Decidable (offsetsSorted l)
  | [] => Decidable.isTrue trivial
  | [_] => Decidable.isTrue trivial
  | a :: b :: l =>
    have : Decidable (offsetsSorted (b :: l)) := offsetsSortedDec (b :: l)
    inferInstanceAs (Decidable (_ ∧ _))

attribute [instance] offsetsSortedDec

def c4ws : List Window := [⟨9, [cmpA]⟩, ⟨10, [cmpB, cmpC, cmpD, cmpE, cmpF]⟩]

def c4out : List CompetitorWithOffset :=
  [⟨⟨Origin.top, "C"⟩, 8⟩, ⟨⟨Origin.top, "B"⟩, 5⟩, ⟨cmpA, 1⟩,
    ⟨cmpD, 11⟩, ⟨cmpE, 14⟩, ⟨cmpF, 17⟩]

/-- C4 counterexample: the list returned by `generate_startlist` is not
sorted by offset.  On this input stabilization moves two competitors into
the first window with `Top` tags; the top-anchored pops push them into the
result immediately, with decreasing offsets (8 then 5), before the
unanchored competitor at offset 1 — so the result is not in offset order
(`main` has to sort it afterwards). -/
theorem c4_output_not_sorted :
    generateStartlist 5 rngZero c4ws 3 2 = some c4out ∧ ¬ offsetsSorted c4out :=
  ⟨rfl, by decide⟩

def c7ws : List Window :=
  [⟨1, [cmpA]⟩, ⟨7, [cmpB, cmpC]⟩, ⟨16, [cmpD, cmpE, cmpF, cmpA]⟩]

/-- C7 counterexample: `stabilize_window` does not compare post-move
spacings.  For the interior window 1 of `c7ws` (duration 7, 2 competitors)
with threshold 4, the code moves a competitor to the next window, although
after the move the next window's spacing would be 16/5 and the previous
window's 1/2, both strictly below 7/1, window 1's own spacing after losing
one competitor — so by the claimed post-move comparison neither neighbor
yields a gain and no move should happen. -/
theorem c7_compares_current_not_post_move_spacings :
    stabilizeDecision c7ws 1 4 = MoveDir.toNext ∧
      fracLt (wspaceExact 16 (4 + 1)) (wspaceExact 7 (2 - 1)) ∧
      fracLt (wspaceExact 1 (1 + 1)) (wspaceExact 7 (2 - 1)) :=
  ⟨by decide, by decide, by decide⟩

/-- The decision rule of `stabilize_window` as the amended claim describes
it: compare the neighbors' and the candidate's CURRENT spacings
(`duration / count`, before any move); move to the strictly better
neighbor provided its spacing strictly exceeds the candidate's; when the
two neighbors tie and exceed the candidate's spacing, flip a fair coin. -/
def specAmendedDecision (ws : List Window) (i : Nat) (t : Int) : MoveDir :=
  let wi := ws.getD i defWindow
  let wp := ws.getD (i-1) defWindow
  let wn := ws.getD (i+1) defWindow
  let sc := wspaceExact wi.duration (windowCount wi)
  let sp := wspaceExact wp.duration (windowCount wp)
  let sn := wspaceExact wn.duration (windowCount wn)
  if fracLt sc (t, 1) then
    if fracLt sp sn then (if fracLt sc sn then MoveDir.toNext else MoveDir.stay)
    else if fracLt sn sp then (if fracLt sc sp then MoveDir.toPrev else MoveDir.stay)
    else (if fracLt sc sp then MoveDir.coinFlip else MoveDir.stay)
  else MoveDir.stay

/-- C7 amended: for every interior window, `stabilize_window`'s choice of
migration coincides with the comparison of the CURRENT spacings (not the
post-move spacings the original claim describes): it moves one competitor
to whichever neighbor currently has the strictly larger spacing, provided
that spacing exceeds the candidate window's own current spacing, and
breaks exact neighbor ties (both improving on the candidate) with a
uniform coin flip. -/
theorem c7_decision_uses_current_spacings (ws : List Window) (i : Nat)
    (t : Int) (h0 : 0 < i) (h1 : i < ws.length - 1) :
    stabilizeDecision ws i t = specAmendedDecision ws i t := by
  simp only [stabilizeDecision, specAmendedDecision, fracLt, fracEq]
  have hint : (0 < i ∧ i < ws.length - 1) = True := by simp [h0, h1]
  simp only [hint, if_true]
  split_ifs <;> first | rfl | (exfalso; push_neg at *; omega)

theorem c7_decision_uses_current_spacings_witness :
    0 < 1 ∧ 1 < c7ws.length - 1 ∧
      stabilizeDecision c7ws 1 4 = specAmendedDecision c7ws 1 4 :=
  ⟨by decide, by decide,
    c7_decision_uses_current_spacings c7ws 1 4 (by decide) (by decide)⟩

/-! ## C1: the stabilization recursion does not terminate -/

theorem c1_aux : ∀ (fuel : Nat) (rng : Rng) (l1 l2 : List Competitor),
    (l1.length = 2 ∧ l2.length = 1) ∨ (l1.length = 1 ∧ l2.length = 2) →
    stabilizeWindows fuel rng [⟨7, l1⟩, ⟨7, l2⟩] 4 = none := by
  intro fuel
  induction fuel with
  | zero => intro rng l1 l2 h; rfl
  | succ f ih =>
    intro rng l1 l2 h
    rcases h with ⟨h1, h2⟩ | ⟨h1, h2⟩
    · obtain ⟨a, b, rfl⟩ := List.length_eq_two.mp h1
      obtain ⟨c, rfl⟩ := List.length_eq_one.mp h2
      rcases Nat.mod_two_eq_zero_or_one (rng.nats rng.ni) with hr | hr <;>
        simp [stabilizeWindows, stabilizeLoop, stabilizeWindow, stabilizeDecision,
          movePrevSurgery, moveNextSurgery, wspaceExact, fracLt, fracEq,
          windowCount, defWindow, Rng.genRange, hr, ih]
    · obtain ⟨a, rfl⟩ := List.length_eq_one.mp h1
      obtain ⟨b, c, rfl⟩ := List.length_eq_two.mp h2
      rcases Nat.mod_two_eq_zero_or_one (rng.nats rng.ni) with hr | hr <;>
        simp [stabilizeWindows, stabilizeLoop, stabilizeWindow, stabilizeDecision,
          movePrevSurgery, moveNextSurgery, wspaceExact, fracLt, fracEq,
          windowCount, defWindow, Rng.genRange, hr, ih]

def c1ws : List Window := [⟨7, [cmpA, cmpB]⟩, ⟨7, [cmpC]⟩]

/-- C1 (code bug): the stabilization procedure does NOT terminate for
every input window sequence with positive durations and unanchored tags.
On two windows of duration 7 holding 2 and 1 unanchored competitors with
spacing threshold 4, every pass moves the surplus competitor across the
boundary and recursively restarts, alternating between the (2,1) and
(1,2) layouts forever: for every fuel bound and every random stream the
fueled recursion exhausts its fuel (`none`), i.e. the nesting depth of
`stabilize_windows` calls is unbounded.  The oscillation is reachable
from the entry point: `generate_startlist` on this input (global ceiling
spacing 5 > threshold 4, so stabilization runs) also diverges for every
fuel, random stream and minimum spacing. -/
theorem c1_stabilization_never_reaches_fixed_point :
    (∀ (fuel : Nat) (rng : Rng), stabilizeWindows fuel rng c1ws 4 = none) ∧
    (∀ (fuel : Nat) (rng : Rng) (m : Int),
      generateStartlist fuel rng c1ws 4 m = none) := by
  constructor
  · intro fuel rng
    exact c1_aux fuel rng _ _ (Or.inl ⟨rfl, rfl⟩)
  · intro fuel rng m
    rcases hsh : shuffleWindows c1ws rng with ⟨ws1, rng1⟩
    have hsim := shuffleWindows_sim c1ws rng
    rw [hsh] at hsim
    simp only [c1ws] at hsim
    obtain ⟨x, u, hx, hsim2, hws⟩ := List.forall₂_cons_right_iff.mp hsim
    obtain ⟨y, v, hy, hsim3, hu⟩ := List.forall₂_cons_right_iff.mp hsim2
    have hv := List.forall₂_nil_right_iff.mp hsim3
    subst hws hu hv
    obtain ⟨xd, xc⟩ := x
    obtain ⟨yd, yc⟩ := y
    obtain ⟨hd0, hp0⟩ := hx
    obtain ⟨hd1, hp1⟩ := hy
    simp only at hd0 hd1
    subst hd0 hd1
    have hl0 : xc.length = 2 := by simpa using hp0.length_eq
    have hl1 : yc.length = 1 := by simpa using hp1.length_eq
    have hstab := c1_aux fuel rng1 xc yc (Or.inl ⟨hl0, hl1⟩)
    simp [generateStartlist, hsh, stabPhase, totalCountInt, totalCount, sumDur,
      rustDivCeil, hl0, hl1, hstab, Int.tdiv, Int.tmod]

/-- C10: the undocumented fast path.  Whenever the ceiling of total
duration over total competitor count is at most the spacing threshold
(and there is at least one competitor), stabilization is skipped
entirely: the result is offset assignment run directly on the shuffled
original window layout, it does not depend on the stabilization fuel (no
migration happens), and every anchor tag is still unanchored after the
shuffle when it was unanchored before. -/
theorem c10_fast_path_skips_stabilization (ws : List Window) (t m : Int)
    (fuel : Nat) (rng : Rng)
    (hpos : 0 < totalCount ws)
    (hfast : rustDivCeil (sumDur ws) (totalCountInt ws) ≤ t) :
    generateStartlist fuel rng ws t m =
      assignOffsets (shuffleWindows ws rng).1 t (shuffleWindows ws rng).2 ∧
    generateStartlist fuel rng ws t m = generateStartlist 0 rng ws t m ∧
    (AllCurrent ws → AllCurrent (shuffleWindows ws rng).1) := by
  rcases hsh : shuffleWindows ws rng with ⟨ws1, rng1⟩
  have hsim := shuffleWindows_sim ws rng
  rw [hsh] at hsim
  have hc : totalCount ws1 = totalCount ws := totalCount_of_sim hsim
  have hd : sumDur ws1 = sumDur ws := sumDur_of_sim hsim
  have hng : ¬ totalCountInt ws1 ≤ 0 := by
    simp only [totalCountInt, hc]
    omega
  have hfast1 : rustDivCeil (sumDur ws1) (totalCountInt ws1) ≤ t := by
    rw [hd, totalCountInt, hc]
    exact hfast
  refine ⟨?_, ?_, ?_⟩
  · simp [generateStartlist, hsh, stabPhase, hng, hfast1]
  · simp [generateStartlist, hsh, stabPhase, hng, hfast1]
  · intro hcur
    exact allCurrent_of_sim hsim hcur

theorem c10_fast_path_skips_stabilization_witness :
    0 < totalCount [(⟨6, [cmpA, cmpB]⟩ : Window)] ∧
    rustDivCeil (sumDur [(⟨6, [cmpA, cmpB]⟩ : Window)])
      (totalCountInt [(⟨6, [cmpA, cmpB]⟩ : Window)]) ≤ 3 ∧
    (generateStartlist 9 rngZero [(⟨6, [cmpA, cmpB]⟩ : Window)] 3 2 =
        assignOffsets (shuffleWindows [(⟨6, [cmpA, cmpB]⟩ : Window)] rngZero).1 3
          (shuffleWindows [(⟨6, [cmpA, cmpB]⟩ : Window)] rngZero).2 ∧
      generateStartlist 9 rngZero [(⟨6, [cmpA, cmpB]⟩ : Window)] 3 2 =
        generateStartlist 0 rngZero [(⟨6, [cmpA, cmpB]⟩ : Window)] 3 2 ∧
      (AllCurrent [(⟨6, [cmpA, cmpB]⟩ : Window)] →
        AllCurrent (shuffleWindows [(⟨6, [cmpA, cmpB]⟩ : Window)] rngZero).1)) :=
  ⟨by decide, by decide,
    c10_fast_path_skips_stabilization [⟨6, [cmpA, cmpB]⟩] 3 2 9 rngZero
      (by decide) (by decide)⟩

/-- The shape invariant of a window's competitor deque: bottom-anchored
competitors form a prefix, top-anchored competitors a suffix, unanchored
competitors the middle. -/
def Shaped (l : List Competitor) : Prop :=
  ∃ bs cs ts : List Competitor,
    l = bs ++ cs ++ ts ∧
    (∀ c ∈ bs, c.origin = Origin.bottom) ∧
    (∀ c ∈ cs, c.origin = Origin.current) ∧
    (∀ c ∈ ts, c.origin = Origin.top)

/-- Every window of the sequence satisfies the shape invariant. -/
def AllShaped (ws : List Window) : Prop := ∀ w ∈ ws, Shaped w.competitors

theorem shaped_nil : Shaped [] := ⟨[], [], [], rfl, by simp, by simp, by simp⟩

theorem shaped_of_all_current {l : List Competitor}
    (h : ∀ c ∈ l, c.origin = Origin.current) : Shaped l :=
  ⟨[], l, [], by simp, by simp, h, by simp⟩

theorem shaped_tail {c : Competitor} {l : List Competitor}
    (h : Shaped (c :: l)) : Shaped l := by
  obtain ⟨bs, cs, ts, he, hb, hc, ht⟩ := h
  match bs, cs, ts, he with
  | [], [], t0 :: ts', he =>
    simp only [List.nil_append] at he
    obtain ⟨-, rfl⟩ := List.cons.inj he
    exact ⟨[], [], l, by simp, by simp, by simp,
      fun x hx => ht x (List.mem_cons_of_mem _ hx)⟩
  | [], c0 :: cs', ts, he =>
    simp only [List.nil_append, List.cons_append] at he
    obtain ⟨-, rfl⟩ := List.cons.inj he
    exact ⟨[], cs', ts, rfl, by simp,
      fun x hx => hc x (List.mem_cons_of_mem _ hx), ht⟩
  | b0 :: bs', cs, ts, he =>
    simp only [List.cons_append] at he
    obtain ⟨-, rfl⟩ := List.cons.inj he
    exact ⟨bs', cs, ts, rfl,
      fun x hx => hb x (List.mem_cons_of_mem _ hx), hc, ht⟩

theorem shaped_dropLast {l : List Competitor} (h : Shaped l) :
    Shaped l.dropLast := by
  obtain ⟨bs, cs, ts, he, hb, hc, ht⟩ := h
  subst he
  by_cases hts : ts = []
  · subst hts
    by_cases hcs : cs = []
    · subst hcs
      refine ⟨bs.dropLast, [], [], by simp, ?_, by simp, by simp⟩
      intro x hx
      exact hb x (List.dropLast_subset _ hx)
    · refine ⟨bs, cs.dropLast, [], ?_, hb, ?_, by simp⟩
      · rw [show bs ++ cs ++ ([] : List Competitor) = bs ++ cs by simp,
          List.dropLast_append_of_ne_nil _ hcs]
        simp
      · intro x hx
        exact hc x (List.dropLast_subset _ hx)
  · refine ⟨bs, cs, ts.dropLast, ?_, hb, hc, ?_⟩
    · rw [List.append_assoc, List.dropLast_append_of_ne_nil _ (by simp [hts] : cs ++ ts ≠ []),
        List.dropLast_append_of_ne_nil _ hts, List.append_assoc]
    · intro x hx
      exact ht x (List.dropLast_subset _ hx)

theorem shaped_push_top {l : List Competitor} (nm : String) (h : Shaped l) :
    Shaped (l ++ [⟨Origin.top, nm⟩]) := by
  obtain ⟨bs, cs, ts, he, hb, hc, ht⟩ := h
  subst he
  refine ⟨bs, cs, ts ++ [⟨Origin.top, nm⟩], by simp, hb, hc, ?_⟩
  intro x hx
  rcases List.mem_append.mp hx with hx | hx
  · exact ht x hx
  · simp at hx
    subst hx
    rfl

theorem shaped_push_bottom {l : List Competitor} (nm : String) (h : Shaped l) :
    Shaped (⟨Origin.bottom, nm⟩ :: l) := by
  obtain ⟨bs, cs, ts, he, hb, hc, ht⟩ := h
  subst he
  refine ⟨⟨Origin.bottom, nm⟩ :: bs, cs, ts, by simp, ?_, hc, ht⟩
  intro x hx
  rcases List.mem_cons.mp hx with hx | hx
  · subst hx; rfl
  · exact hb x hx

theorem allShaped_getD {ws : List Window} (h : AllShaped ws) (i : Nat) :
    Shaped (ws.getD i defWindow).competitors := by
  by_cases hi : i < ws.length
  · rw [List.getD_eq_getElem _ _ hi]
    exact h _ (List.getElem_mem hi)
  · rw [List.getD_eq_default _ _ (Nat.le_of_not_lt hi)]
    exact shaped_nil

theorem allShaped_set {ws : List Window} {d : Int} {comps : List Competitor}
    (h : AllShaped ws) (hw : Shaped comps) (i : Nat) :
    AllShaped (ws.set i ⟨d, comps⟩) := by
  intro x hx
  rcases List.mem_or_eq_of_mem_set hx with hx | hx
  · exact h x hx
  · subst hx; exact hw

theorem movePrevSurgery_shaped {ws ws2 : List Window} {i : Nat}
    (h : movePrevSurgery ws i = some ws2) (hs : AllShaped ws) :
    AllShaped ws2 := by
  unfold movePrevSurgery at h
  rcases hcomp : (ws.getD i defWindow).competitors with _ | ⟨c, rest⟩ <;>
    simp only [hcomp] at h
  · exact absurd h (by simp)
  · have hwi := allShaped_getD hs i
    rw [hcomp] at hwi
    have hrest : Shaped rest := shaped_tail hwi
    have hs1 : AllShaped (ws.set i ⟨(ws.getD i defWindow).duration, rest⟩) :=
      allShaped_set hs hrest i
    have hwp := allShaped_getD hs1 (i-1)
    simp only [Option.some.injEq] at h
    subst h
    exact allShaped_set hs1 (shaped_push_top c.name hwp) (i-1)

theorem moveNextSurgery_shaped {ws ws2 : List Window} {i : Nat}
    (h : moveNextSurgery ws i = some ws2) (hs : AllShaped ws) :
    AllShaped ws2 := by
  unfold moveNextSurgery at h
  rcases hlast : (ws.getD i defWindow).competitors.getLast? with _ | c <;>
    simp only [hlast] at h
  · exact absurd h (by simp)
  · have hwi := allShaped_getD hs i
    have hdrop : Shaped (ws.getD i defWindow).competitors.dropLast :=
      shaped_dropLast hwi
    have hs1 : AllShaped (ws.set i
        ⟨(ws.getD i defWindow).duration, (ws.getD i defWindow).competitors.dropLast⟩) :=
      allShaped_set hs hdrop i
    have hwn := allShaped_getD hs1 (i+1)
    simp only [Option.some.injEq] at h
    subst h
    exact allShaped_set hs1 (shaped_push_bottom c.name hwn) (i+1)

theorem stabilizeDecision_toNext_bound {ws : List Window} {i : Nat} {t : Int}
    (h : stabilizeDecision ws i t = MoveDir.toNext) : i < ws.length - 1 := by
  by_contra hni
  unfold stabilizeDecision at h
  simp only [hni, and_false, false_and, if_false] at h
  split_ifs at h

theorem stabilizeDecision_coinFlip_bound {ws : List Window} {i : Nat} {t : Int}
    (h : stabilizeDecision ws i t = MoveDir.coinFlip) : i < ws.length - 1 := by
  by_contra hni
  unfold stabilizeDecision at h
  simp only [hni, and_false, false_and, if_false] at h
  split_ifs at h

/-! ## Generic preservation through the stabilization recursion -/

theorem stabilizeWindow_preserves (P : List Window → Prop)
    (hprev : ∀ ws i ws2, movePrevSurgery ws i = some ws2 → P ws → P ws2)
    (hnext2 : ∀ ws i ws2, i + 1 < ws.length → moveNextSurgery ws i = some ws2 → P ws → P ws2)
    (next : Rng → List Window → Int → Option (List Window × Rng))
    (hn : ∀ rng ws t res, next rng ws t = some res → P ws → P res.1) :
    ∀ rng ws i t res, stabilizeWindow next rng ws i t = some res → P ws → P res.1 := by
  intro rng ws i t res h hP
  unfold stabilizeWindow at h
  rcases hdec : stabilizeDecision ws i t with _ | _ | _ | _ <;> rw [hdec] at h
  · simp only [Option.some.injEq] at h
    rw [← h]
    exact hP
  · rcases hs : movePrevSurgery ws i with _ | ws2 <;> rw [hs] at h
    · exact absurd h (by simp)
    · exact hn _ _ _ _ h (hprev _ _ _ hs hP)
  · rcases hs : moveNextSurgery ws i with _ | ws2 <;> rw [hs] at h
    · exact absurd h (by simp)
    · have hbd : i + 1 < ws.length := by
        have := stabilizeDecision_toNext_bound hdec
        omega
      exact hn _ _ _ _ h (hnext2 _ _ _ hbd hs hP)
  · rcases hb : rng.coin with ⟨b, rng1⟩
    rw [hb] at h
    cases b
    · simp only [Bool.false_eq_true, if_false] at h
      rcases hs : moveNextSurgery ws i with _ | ws2 <;> rw [hs] at h
      · exact absurd h (by simp)
      · have hbd : i + 1 < ws.length := by
          have := stabilizeDecision_coinFlip_bound hdec
          omega
        exact hn _ _ _ _ h (hnext2 _ _ _ hbd hs hP)
    · simp only [if_true] at h
      rcases hs : movePrevSurgery ws i with _ | ws2 <;> rw [hs] at h
      · exact absurd h (by simp)
      · exact hn _ _ _ _ h (hprev _ _ _ hs hP)

theorem stabilizeLoop_preserves (P : List Window → Prop)
    (hprev : ∀ ws i ws2, movePrevSurgery ws i = some ws2 → P ws → P ws2)
    (hnext2 : ∀ ws i ws2, i + 1 < ws.length → moveNextSurgery ws i = some ws2 → P ws → P ws2)
    (next : Rng → List Window → Int → Option (List Window × Rng))
    (hn : ∀ rng ws t res, next rng ws t = some res → P ws → P res.1) :
    ∀ n rng ws t r k res, stabilizeLoop next n rng ws t r k = some res →
      P ws → P res.1 := by
  intro n
  induction n with
  | zero =>
    intro rng ws t r k res h hP
    simp only [stabilizeLoop, Option.some.injEq] at h
    rw [← h]
    exact hP
  | succ m ih =>
    intro rng ws t r k res h hP
    simp only [stabilizeLoop] at h
    rcases hw : stabilizeWindow next rng ws ((k + r) % ws.length) t with _ | ⟨ws1, rng1⟩ <;>
      rw [hw] at h
    · exact absurd h (by simp)
    · exact ih _ _ _ _ _ _ h
        (stabilizeWindow_preserves P hprev hnext2 next hn _ _ _ _ _ hw hP)

theorem stabilizeWindows_preserves (P : List Window → Prop)
    (hprev : ∀ ws i ws2, movePrevSurgery ws i = some ws2 → P ws → P ws2)
    (hnext2 : ∀ ws i ws2, i + 1 < ws.length → moveNextSurgery ws i = some ws2 → P ws → P ws2) :
    ∀ fuel rng ws t res, stabilizeWindows fuel rng ws t = some res →
      P ws → P res.1 := by
  intro fuel
  induction fuel with
  | zero => intro rng ws t res h; exact absurd h (by simp [stabilizeWindows])
  | succ f ih =>
    intro rng ws t res h hP
    simp only [stabilizeWindows] at h
    exact stabilizeLoop_preserves P hprev hnext2 _
      (fun rng2 ws2 t2 res2 h2 hP2 => ih rng2 ws2 t2 res2 h2 hP2)
      _ _ _ _ _ _ _ h hP

/-! ## Conservation of competitors (as a multiset of names) -/

/-- Names of a competitor list, as a multiset. -/
def compNames (l : List Competitor) : Multiset String :=
  (l.map Competitor.name : List String)

/-- Names of every competitor of every window, as a multiset. -/
def winNames (ws : List Window) : Multiset String :=
  (ws.map fun w => compNames w.competitors).sum

theorem compNames_cons (c : Competitor) (l : List Competitor) :
    compNames (c :: l) = c.name ::ₘ compNames l := by
  simp [compNames]

theorem compNames_append (l1 l2 : List Competitor) :
    compNames (l1 ++ l2) = compNames l1 + compNames l2 := by
  simp [compNames]

theorem compNames_card (l : List Competitor) :
    Multiset.card (compNames l) = l.length := by
  simp [compNames]

theorem winNames_cons (w : Window) (ws : List Window) :
    winNames (w :: ws) = compNames w.competitors + winNames ws := by
  simp [winNames]

theorem winNames_card (ws : List Window) :
    Multiset.card (winNames ws) = totalCount ws := by
  induction ws with
  | nil => rfl
  | cons w ws ih =>
    simp [winNames_cons, totalCount, compNames_card] at *
    omega

theorem winNames_set : ∀ (ws : List Window) (i : Nat) (w : Window),
    i < ws.length →
    winNames (ws.set i w) + compNames (ws.getD i defWindow).competitors =
      winNames ws + compNames w.competitors := by
  intro ws
  induction ws with
  | nil => intro i w h; exact absurd h (by simp)
  | cons x xs ih =>
    intro i w h
    cases i with
    | zero =>
      simp only [List.set_cons_zero, List.getD_cons_zero, winNames_cons]
      abel
    | succ j =>
      have hj : j < xs.length := by simpa using h
      simp only [List.set_cons_succ, List.getD_cons_succ, winNames_cons]
      rw [add_assoc, ih j w hj, add_assoc]


theorem movePrevSurgery_inRange {ws ws2 : List Window} {i : Nat}
    (h : movePrevSurgery ws i = some ws2) : i < ws.length := by
  by_contra hi
  unfold movePrevSurgery at h
  rw [List.getD_eq_default _ _ (Nat.le_of_not_lt hi)] at h
  simp [defWindow] at h

theorem movePrevSurgery_names {ws ws2 : List Window} {i : Nat}
    (h : movePrevSurgery ws i = some ws2) : winNames ws2 = winNames ws := by
  have hi : i < ws.length := movePrevSurgery_inRange h
  simp only [movePrevSurgery] at h
  rcases hcomp : (ws.getD i defWindow).competitors with _ | ⟨c, rest⟩ <;>
    rw [hcomp] at h
  · exact absurd h (by simp)
  · simp only [Option.some.injEq] at h
    subst h
    set w1 : Window := ⟨(ws.getD i defWindow).duration, rest⟩ with hw1
    set ws1 : List Window := ws.set i w1 with hws1
    set wp : Window := ws1.getD (i-1) defWindow with hwp
    have hA := winNames_set ws i w1 hi
    rw [hcomp, compNames_cons] at hA
    have hA' : (winNames ws1 + {c.name}) + compNames rest =
        winNames ws + compNames rest := by
      rw [add_assoc, Multiset.singleton_add]
      exact hA
    have hA2 : winNames ws1 + {c.name} = winNames ws := add_right_cancel hA'
    have hi1 : i - 1 < ws1.length := by
      rw [hws1, List.length_set]
      omega
    have hB := winNames_set ws1 (i-1)
      ⟨wp.duration, wp.competitors ++ [⟨Origin.top, c.name⟩]⟩ hi1
    rw [compNames_append] at hB
    have hsing : compNames [(⟨Origin.top, c.name⟩ : Competitor)] = {c.name} := by
      simp [compNames]
    rw [hsing] at hB
    have hB' : winNames (ws1.set (i-1) ⟨wp.duration, wp.competitors ++ [⟨Origin.top, c.name⟩]⟩)
          + compNames wp.competitors =
        (winNames ws1 + {c.name}) + compNames wp.competitors := by
      rw [hB]
      abel
    have hB2 := add_right_cancel hB'
    rw [hB2, hA2]

theorem moveNextSurgery_names {ws ws2 : List Window} {i : Nat}
    (hb : i + 1 < ws.length) (h : moveNextSurgery ws i = some ws2) :
    winNames ws2 = winNames ws := by
  have hi : i < ws.length := by omega
  simp only [moveNextSurgery] at h
  rcases hlast : (ws.getD i defWindow).competitors.getLast? with _ | c <;>
    rw [hlast] at h
  · exact absurd h (by simp)
  · simp only [Option.some.injEq] at h
    subst h
    have hdl : (ws.getD i defWindow).competitors.dropLast ++ [c] =
        (ws.getD i defWindow).competitors :=
      List.dropLast_append_getLast? c hlast
    set w1 : Window := ⟨(ws.getD i defWindow).duration,
      (ws.getD i defWindow).competitors.dropLast⟩ with hw1
    set ws1 : List Window := ws.set i w1 with hws1
    set wn : Window := ws1.getD (i+1) defWindow with hwn
    have hsing : compNames [c] = {c.name} := by simp [compNames]
    have hA := winNames_set ws i w1 hi
    have hcn : compNames (ws.getD i defWindow).competitors =
        compNames (ws.getD i defWindow).competitors.dropLast + {c.name} := by
      conv_lhs => rw [← hdl]
      rw [compNames_append, hsing]
    have hA' : (winNames ws1 + {c.name}) +
        compNames (ws.getD i defWindow).competitors.dropLast =
        winNames ws + compNames (ws.getD i defWindow).competitors.dropLast := by
      calc (winNames ws1 + {c.name}) +
          compNames (ws.getD i defWindow).competitors.dropLast
          = winNames ws1 + compNames (ws.getD i defWindow).competitors := by
            rw [hcn]
            abel
        _ = winNames ws + compNames (ws.getD i defWindow).competitors.dropLast := hA
    have hA2 : winNames ws1 + {c.name} = winNames ws := add_right_cancel hA'
    have hi2 : i + 1 < ws1.length := by
      rw [hws1, List.length_set]
      exact hb
    have hB := winNames_set ws1 (i+1)
      ⟨wn.duration, ⟨Origin.bottom, c.name⟩ :: wn.competitors⟩ hi2
    rw [compNames_cons] at hB
    have hB' : winNames (ws1.set (i+1) ⟨wn.duration, ⟨Origin.bottom, c.name⟩ :: wn.competitors⟩)
          + compNames wn.competitors =
        (winNames ws1 + {c.name}) + compNames wn.competitors := by
      rw [hB, ← Multiset.singleton_add]
      abel
    have hB2 := add_right_cancel hB'
    rw [hB2, hA2]

/-- Stabilization preserves the shape invariant of every window. -/
theorem stabilizeWindows_shaped {fuel : Nat} {rng : Rng} {ws : List Window}
    {t : Int} {res : List Window × Rng}
    (h : stabilizeWindows fuel rng ws t = some res) (hs : AllShaped ws) :
    AllShaped res.1 :=
  stabilizeWindows_preserves AllShaped
    (fun _ _ _ hsg hP => movePrevSurgery_shaped hsg hP)
    (fun _ _ _ _ hsg hP => moveNextSurgery_shaped hsg hP)
    fuel rng ws t res h hs

/-- Stabilization preserves the multiset of competitor names. -/
theorem stabilizeWindows_names {fuel : Nat} {rng : Rng} {ws : List Window}
    {t : Int} {res : List Window × Rng}
    (h : stabilizeWindows fuel rng ws t = some res) :
    winNames res.1 = winNames ws := by
  exact stabilizeWindows_preserves (fun x => winNames x = winNames ws)
    (fun _ _ _ hsg hP => (movePrevSurgery_names hsg).trans hP)
    (fun _ _ _ hbd hsg hP => (moveNextSurgery_names hbd hsg).trans hP)
    fuel rng ws t res h rfl

theorem allShaped_of_allCurrent {ws : List Window} (h : AllCurrent ws) :
    AllShaped ws :=
  fun w hw => shaped_of_all_current (h w hw)

/-- The window list handed to the offset assigner, given the shuffled
windows: the stabilization phase of `generate_startlist`. -/
theorem stabPhase_shaped {fuel : Nat} {rng : Rng} {ws : List Window} {t : Int}
    {res : List Window × Rng}
    (h : stabPhase fuel rng ws t = some res) (hcur : AllCurrent ws) :
    AllShaped res.1 := by
  unfold stabPhase at h
  split_ifs at h
  · simp only [Option.some.injEq] at h
    rw [← h]
    exact allShaped_of_allCurrent hcur
  · exact stabilizeWindows_shaped h (allShaped_of_allCurrent hcur)

def c8ws : List Window := [⟨9, [cmpA]⟩, ⟨10, [cmpB, cmpC, cmpD, cmpE, cmpF]⟩]

/-- C8: for every window sequence whose competitors all start unanchored,
every migration step (the surgery of `move_to_prev_window` or
`move_to_next_window`) preserves the shape invariant — bottom-anchored
competitors a prefix, top-anchored a suffix, unanchored the middle — and
the invariant holds in every window when offset assignment begins (i.e.
after the stabilization phase run on the shuffled windows). -/
theorem c8_shape_invariant (ws : List Window) (t : Int) (fuel : Nat)
    (rng : Rng) (res : List Window × Rng) (ws1 : List Window) (i : Nat)
    (ws2 : List Window)
    (hcur : AllCurrent ws)
    (h : stabPhase fuel (shuffleWindows ws rng).2 (shuffleWindows ws rng).1 t =
      some res)
    (hstep : movePrevSurgery ws1 i = some ws2 ∨ moveNextSurgery ws1 i = some ws2)
    (hs1 : AllShaped ws1) :
    AllShaped ws2 ∧ AllShaped res.1 := by
  constructor
  · rcases hstep with hstep | hstep
    · exact movePrevSurgery_shaped hstep hs1
    · exact moveNextSurgery_shaped hstep hs1
  · have hcur1 : AllCurrent (shuffleWindows ws rng).1 :=
      allCurrent_of_sim (shuffleWindows_sim ws rng) hcur
    exact stabPhase_shaped h hcur1

theorem c8_shape_invariant_witness :
    AllCurrent c8ws ∧
    (AllShaped [(⟨6, [cmpA, ⟨Origin.top, "B"⟩]⟩ : Window), ⟨6, []⟩] ∧
      AllShaped [(⟨9, [cmpA, ⟨Origin.top, "B"⟩, ⟨Origin.top, "C"⟩]⟩ : Window),
        ⟨10, [cmpD, cmpE, cmpF]⟩]) :=
  ⟨by decide,
    c8_shape_invariant c8ws 3 5 rngZero
      ([⟨9, [cmpA, ⟨Origin.top, "B"⟩, ⟨Origin.top, "C"⟩]⟩, ⟨10, [cmpD, cmpE, cmpF]⟩],
        (⟨fun _ => false, fun _ => 0, 0, 9⟩ : Rng))
      [⟨6, [cmpA]⟩, ⟨6, [cmpB]⟩] 1 [⟨6, [cmpA, ⟨Origin.top, "B"⟩]⟩, ⟨6, []⟩]
      (by decide) rfl (Or.inl rfl)
      (allShaped_of_allCurrent (by decide))⟩

/-! ## Conservation through offset assignment -/

/-- Names of the assigned pairs, as a multiset. -/
def outNames (l : List CompetitorWithOffset) : Multiset String :=
  (l.map fun p => p.competitor.name : List String)

theorem outNames_card (l : List CompetitorWithOffset) :
    Multiset.card (outNames l) = l.length := by
  simp [outNames]

theorem outNames_append (l1 l2 : List CompetitorWithOffset) :
    outNames (l1 ++ l2) = outNames l1 + outNames l2 := by
  simp [outNames]

theorem popBottoms_spec : ∀ (bs rest : List Competitor) (curr t : Int),
    (∀ c ∈ bs, c.origin = Origin.bottom) →
    (rest = [] ∨ ∃ c cs, rest = c :: cs ∧ c.origin ≠ Origin.bottom) →
    outNames (popBottoms (bs ++ rest) curr t).1 = compNames bs ∧
      (popBottoms (bs ++ rest) curr t).2.1 = rest := by
  intro bs
  induction bs with
  | nil =>
    intro rest curr t hb hr
    rcases hr with rfl | ⟨c, cs, rfl, hc⟩
    · simp [popBottoms, outNames, compNames]
    · simp [popBottoms, hc, outNames, compNames]
  | cons b bs ih =>
    intro rest curr t hb hr
    have hbb : b.origin = Origin.bottom := hb b (by simp)
    have hrec := ih rest (curr + t) t (fun c hc => hb c (by simp [hc])) hr
    simp only [List.cons_append, popBottoms, hbb, if_true]
    rcases hpb : popBottoms (bs ++ rest) (curr + t) t with ⟨pairs, rest2, curr2⟩
    rw [hpb] at hrec
    simp only at hrec ⊢
    rw [outNames, List.map_cons]
    simp only [outNames] at hrec
    rw [compNames_cons]
    exact ⟨by simp only [← Multiset.cons_coe, hrec.1], hrec.2⟩

theorem popTopsRev_spec : ∀ (ts rest : List Competitor) (rev t : Int),
    (∀ c ∈ ts, c.origin = Origin.top) →
    (rest = [] ∨ ∃ c cs, rest = c :: cs ∧ c.origin ≠ Origin.top) →
    outNames (popTopsRev (ts ++ rest) rev t).1 = compNames ts ∧
      (popTopsRev (ts ++ rest) rev t).2.1 = rest := by
  intro ts
  induction ts with
  | nil =>
    intro rest rev t ht hr
    rcases hr with rfl | ⟨c, cs, rfl, hc⟩
    · simp [popTopsRev, outNames, compNames]
    · simp [popTopsRev, hc, outNames, compNames]
  | cons x ts ih =>
    intro rest rev t ht hr
    have hxx : x.origin = Origin.top := ht x (by simp)
    have hrec := ih rest (rev - t) t (fun c hc => ht c (by simp [hc])) hr
    simp only [List.cons_append, popTopsRev, hxx, if_true]
    rcases hpt : popTopsRev (ts ++ rest) (rev - t) t with ⟨pairs, rest2, rev2⟩
    rw [hpt] at hrec
    simp only at hrec ⊢
    rw [outNames, List.map_cons]
    simp only [outNames] at hrec
    rw [compNames_cons]
    exact ⟨by simp only [← Multiset.cons_coe, hrec.1], hrec.2⟩

theorem assignCurrents_names : ∀ (cs : List Competitor) (curr sp rem remn : Int)
    (jitter : Bool) (rng : Rng) (pairs : List CompetitorWithOffset)
    (curr2 : Int) (rng2 : Rng),
    (∀ c ∈ cs, c.origin = Origin.current) →
    assignCurrents cs curr sp rem remn jitter rng = some (pairs, curr2, rng2) →
    outNames pairs = compNames cs := by
  intro cs
  induction cs with
  | nil =>
    intro curr sp rem remn jitter rng pairs curr2 rng2 hc h
    simp only [assignCurrents, Option.some.injEq, Prod.mk.injEq] at h
    rw [← h.1]
    simp [outNames, compNames]
  | cons c cs ih =>
    intro curr sp rem remn jitter rng pairs curr2 rng2 hc h
    have hcc : c.origin = Origin.current := hc c (by simp)
    simp only [assignCurrents, hcc, if_true] at h
    rcases hg : (if jitter then rng.genBoolFrac rem remn else some (false, rng)) with
      _ | ⟨absorb, rng1⟩ <;> rw [hg] at h
    · exact absurd h (by simp)
    · simp only at h
      rcases ha : assignCurrents cs ((if absorb = true then curr + 1 else curr) + sp) sp
          (if absorb = true then rem - 1 else rem) (remn - 1) jitter rng1 with
        _ | ⟨pairs3, curr3, rng3⟩ <;> rw [ha] at h
      · exact absurd h (by simp)
      · simp only [Option.some.injEq, Prod.mk.injEq] at h
        obtain ⟨rfl, -, -⟩ := h
        rw [outNames, List.map_cons, compNames_cons]
        have := ih _ _ _ _ _ _ _ _ _ (fun x hx => hc x (by simp [hx])) ha
        simp only [outNames] at this
        simp only [← Multiset.cons_coe, this]

theorem compNames_reverse (l : List Competitor) :
    compNames l.reverse = compNames l := by
  simp [compNames]

theorem assignLoop_names : ∀ (ws : List Window) (t : Int) (rng : Rng)
    (curr s : Int) (out : List CompetitorWithOffset),
    AllShaped ws →
    assignLoop ws t rng curr s = some out →
    outNames out = winNames ws := by
  intro ws
  induction ws with
  | nil =>
    intro t rng curr s out hs h
    simp only [assignLoop, Option.some.injEq] at h
    rw [← h]
    simp [outNames, winNames]
  | cons w rest ih =>
    intro t rng curr s out hs h
    have hsw : Shaped w.competitors := hs w (by simp)
    have hsr : AllShaped rest := fun x hx => hs x (by simp [hx])
    obtain ⟨bs, cs, ts, hcomp, hb, hc, ht⟩ := hsw
    simp only [assignLoop] at h
    by_cases hlen : w.competitors.length = 0
    · rw [if_pos hlen] at h
      have hnil : w.competitors = [] := List.length_eq_zero.mp hlen
      rw [winNames_cons, hnil, ih _ _ _ _ _ hsr h]
      simp [compNames]
    · rw [if_neg hlen] at h
      have hcomp2 : w.competitors = bs ++ (cs ++ ts) := by
        rw [hcomp, List.append_assoc]
      rw [hcomp2] at h
      -- bottom pops
      have hrB : cs ++ ts = [] ∨
          ∃ c0 cs0, cs ++ ts = c0 :: cs0 ∧ c0.origin ≠ Origin.bottom := by
        rcases cs with _ | ⟨c0, cs'⟩
        · rcases ts with _ | ⟨t0, ts'⟩
          · exact Or.inl rfl
          · exact Or.inr ⟨t0, ts', rfl, by rw [ht t0 (by simp)]; simp⟩
        · exact Or.inr ⟨c0, cs' ++ ts, rfl, by rw [hc c0 (by simp)]; simp⟩
      have hpbs := popBottoms_spec bs (cs ++ ts) curr t hb hrB
      rcases hpb : popBottoms (bs ++ (cs ++ ts)) curr t with ⟨pB, rest1, curr1⟩
      rw [hpb] at hpbs h
      simp only at hpbs h
      obtain ⟨hpBnames, hrest1⟩ := hpbs
      subst hrest1
      -- top pops
      have hrT : cs.reverse = [] ∨
          ∃ c0 cs0, cs.reverse = c0 :: cs0 ∧ c0.origin ≠ Origin.top := by
        rcases hcrev : cs.reverse with _ | ⟨c0, cs0⟩
        · exact Or.inl rfl
        · refine Or.inr ⟨c0, cs0, rfl, ?_⟩
          have : c0 ∈ cs := by
            rw [← List.mem_reverse, hcrev]
            simp
          rw [hc c0 this]
          simp
      have hpts := popTopsRev_spec ts.reverse cs.reverse (s + w.duration - 1) t
        (fun c hcm => ht c (List.mem_reverse.mp hcm)) hrT
      rcases hpt : popTopsRev (ts.reverse ++ cs.reverse) (s + w.duration - 1) t with
        ⟨pT, restRev, rev2⟩
      rw [hpt] at hpts
      simp only at hpts
      obtain ⟨hpTnames, hrestRev⟩ := hpts
      have hptops : popTops (cs ++ ts) (s + w.duration - 1) t = (pT, cs, rev2) := by
        unfold popTops
        rw [← List.reverse_append] at hpt
        rw [hpt]
        simp [hrestRev]
      rw [hptops] at h
      -- split on the unanchored step and the tail of the loop
      split at h
      · exact absurd h (by simp)
      · rename_i stepval curPairs curr3 rng3 hstep
        split at h
        · exact absurd h (by simp)
        · rename_i tail hrec
          simp only [Option.some.injEq] at h
          have hpCnames : outNames curPairs = compNames cs := by
            by_cases hcz : (cs.length : Int) = 0
            · rw [if_neg (not_not_intro hcz)] at hstep
              simp only [Option.some.injEq, Prod.mk.injEq] at hstep
              have hcnil : cs = [] := by
                simp only [Nat.cast_eq_zero] at hcz
                exact List.length_eq_zero.mp hcz
              rw [← hstep.1, hcnil]
              simp [outNames, compNames]
            · rw [if_pos hcz] at hstep
              have hdvd : ((cs.length : Int) + 1) ≠ 0 := by positivity
              rw [checkedDivMod, if_neg hdvd] at hstep
              simp only at hstep
              exact assignCurrents_names _ _ _ _ _ _ _ _ _ _ hc hstep
          have htail := ih _ _ _ _ _ hsr hrec
          rw [← h, outNames_append, outNames_append, outNames_append, hpBnames,
            hpTnames, hpCnames, htail, winNames_cons, hcomp, compNames_append,
            compNames_append, compNames_reverse]
          abel

theorem winNames_of_sim : ∀ {ws' ws : List Window},
    List.Forall₂ WinSim ws' ws → winNames ws' = winNames ws := by
  intro ws' ws h
  induction h with
  | nil => rfl
  | cons hw _ ih =>
    rw [winNames_cons, winNames_cons, ih]
    have : compNames _ = compNames _ :=
      Multiset.coe_eq_coe.mpr (hw.2.map Competitor.name)
    rw [compNames, compNames] at this ⊢
    rw [this]

theorem stabPhase_names {fuel : Nat} {rng : Rng} {ws : List Window} {t : Int}
    {res : List Window × Rng} (h : stabPhase fuel rng ws t = some res) :
    winNames res.1 = winNames ws := by
  unfold stabPhase at h
  split_ifs at h
  · simp only [Option.some.injEq] at h
    rw [← h]
  · exact stabilizeWindows_names h

/-- C2: for every input whose competitors all start unanchored and whose
total competitor count is positive, whenever `generate_startlist` returns
a list, that list has length equal to the sum of the input windows'
competitor counts and carries exactly the input competitors: the multiset
of names in the output equals the multiset of names in the input. -/
theorem c2_conservation (ws : List Window) (t m : Int) (fuel : Nat)
    (rng : Rng) (res : List CompetitorWithOffset)
    (hcur : AllCurrent ws) (hpos : 0 < totalCount ws)
    (h : generateStartlist fuel rng ws t m = some res) :
    res.length = totalCount ws ∧ outNames res = winNames ws := by
  rcases hsh : shuffleWindows ws rng with ⟨ws1, rng1⟩
  have hsim := shuffleWindows_sim ws rng
  rw [hsh] at hsim
  have hc1 : totalCount ws1 = totalCount ws := totalCount_of_sim hsim
  have hn1 : winNames ws1 = winNames ws := winNames_of_sim hsim
  have hcur1 : AllCurrent ws1 := allCurrent_of_sim hsim hcur
  have hng : ¬ totalCountInt ws1 ≤ 0 := by
    simp only [totalCountInt, hc1]
    omega
  simp only [generateStartlist, hsh] at h
  rw [if_neg hng] at h
  rcases hst : stabPhase fuel rng1 ws1 t with _ | ⟨ws2, rng2⟩ <;> rw [hst] at h
  · exact absurd h (by simp)
  · have hn2 : winNames ws2 = winNames ws1 := stabPhase_names hst
    have hs2 : AllShaped ws2 := stabPhase_shaped hst hcur1
    unfold assignOffsets at h
    have hnames := assignLoop_names ws2 t rng2 0 0 res hs2 h
    refine ⟨?_, by rw [hnames, hn2, hn1]⟩
    rw [← outNames_card res, hnames, hn2, hn1, winNames_card]

theorem c2_conservation_witness :
    AllCurrent [(⟨30, [cmpA]⟩ : Window)] ∧ 0 < totalCount [(⟨30, [cmpA]⟩ : Window)] ∧
    ((generateStartlist 1 rngZero [(⟨30, [cmpA]⟩ : Window)] 3 2).getD []).length =
        totalCount [(⟨30, [cmpA]⟩ : Window)] ∧
      outNames ((generateStartlist 1 rngZero [(⟨30, [cmpA]⟩ : Window)] 3 2).getD []) =
        winNames [(⟨30, [cmpA]⟩ : Window)] :=
  ⟨by decide, by decide,
    c2_conservation [⟨30, [cmpA]⟩] 3 2 1 rngZero
      ((generateStartlist 1 rngZero [(⟨30, [cmpA]⟩ : Window)] 3 2).getD [])
      (by decide) (by decide) rfl⟩

/-! ## Sortedness of the output when no competitor is anchored -/

/-- The pairs produced by the unanchored loop when the jitter is disabled:
each competitor sits one `spacing` step after the previous one. -/
def mkPairs : List Competitor → Int → Int → List CompetitorWithOffset
  | [], _, _ => []
  | c :: cs, curr, sp => ⟨c, curr + sp⟩ :: mkPairs cs (curr + sp) sp

theorem assignCurrents_noJitter : ∀ (cs : List Competitor) (curr sp rem remn : Int)
    (rng : Rng), (∀ c ∈ cs, c.origin = Origin.current) →
    assignCurrents cs curr sp rem remn false rng =
      some (mkPairs cs curr sp, curr + cs.length * sp, rng) := by
  intro cs
  induction cs with
  | nil =>
    intro curr sp rem remn rng hc
    simp [assignCurrents, mkPairs]
  | cons c cs ih =>
    intro curr sp rem remn rng hc
    have hcc : c.origin = Origin.current := hc c (by simp)
    simp only [assignCurrents, hcc, if_true, if_false, Bool.false_eq_true]
    rw [ih (curr + sp) sp rem (remn - 1) rng (fun x hx => hc x (by simp [hx]))]
    simp only [mkPairs, Option.some.injEq, Prod.mk.injEq, List.length_cons,
      true_and, and_true]
    push_cast
    ring

theorem mkPairs_sorted : ∀ (cs : List Competitor) (curr sp : Int), 0 ≤ sp →
    offsetsSorted (mkPairs cs curr sp) := by
  intro cs
  induction cs with
  | nil => intro curr sp hsp; exact trivial
  | cons c cs ih =>
    intro curr sp hsp
    rcases cs with _ | ⟨c2, cs2⟩
    · exact trivial
    · exact ⟨by show curr + sp ≤ curr + sp + sp; omega, ih (curr + sp) sp hsp⟩

theorem mkPairs_lb : ∀ (cs : List Competitor) (curr sp : Int), 0 ≤ sp →
    ∀ p ∈ mkPairs cs curr sp, curr ≤ p.offset := by
  intro cs
  induction cs with
  | nil => intro curr sp hsp p hp; exact absurd hp (by simp [mkPairs])
  | cons c cs ih =>
    intro curr sp hsp p hp
    rcases List.mem_cons.mp hp with hp | hp
    · subst hp; simp; omega
    · have := ih (curr + sp) sp hsp p hp
      omega

theorem mkPairs_ub : ∀ (cs : List Competitor) (curr sp : Int), 0 ≤ sp →
    ∀ p ∈ mkPairs cs curr sp, p.offset ≤ curr + cs.length * sp := by
  intro cs
  induction cs with
  | nil => intro curr sp hsp p hp; exact absurd hp (by simp [mkPairs])
  | cons c cs ih =>
    intro curr sp hsp p hp
    rcases List.mem_cons.mp hp with hp | hp
    · subst hp
      simp only [List.length_cons]
      have : 0 ≤ (cs.length : Int) * sp := by positivity
      push_cast
      simp
      nlinarith
    · have := ih (curr + sp) sp hsp p hp
      simp only [List.length_cons]
      push_cast
      push_cast at this
      nlinarith

theorem offsetsSorted_append : ∀ (l1 l2 : List CompetitorWithOffset),
    offsetsSorted l1 → offsetsSorted l2 →
    (∀ p ∈ l1, ∀ q ∈ l2, p.offset ≤ q.offset) →
    offsetsSorted (l1 ++ l2) := by
  intro l1
  induction l1 with
  | nil => intro l2 h1 h2 hx; simpa using h2
  | cons a l1 ih =>
    intro l2 h1 h2 hx
    rcases l1 with _ | ⟨b, l1'⟩
    · rcases l2 with _ | ⟨q, l2'⟩
      · exact trivial
      · exact ⟨hx a (by simp) q (by simp), h2⟩
    · refine ⟨h1.1, ?_⟩
      exact ih l2 h1.2 h2 (fun p hp q hq => hx p (by simp [List.mem_cons.mp hp]) q hq)

theorem popBottoms_noBottom (l : List Competitor) (curr t : Int)
    (h : l = [] ∨ ∃ y ys, l = y :: ys ∧ y.origin ≠ Origin.bottom) :
    popBottoms l curr t = ([], l, curr) := by
  rcases h with rfl | ⟨y, ys, rfl, hy⟩
  · rfl
  · simp [popBottoms, hy]

theorem popTopsRev_noTop (l : List Competitor) (rev t : Int)
    (h : l = [] ∨ ∃ y ys, l = y :: ys ∧ y.origin ≠ Origin.top) :
    popTopsRev l rev t = ([], l, rev) := by
  rcases h with rfl | ⟨y, ys, rfl, hy⟩
  · rfl
  · simp [popTopsRev, hy]

theorem popTops_noTop (l : List Competitor) (rev t : Int)
    (h : l.reverse = [] ∨ ∃ y ys, l.reverse = y :: ys ∧ y.origin ≠ Origin.top) :
    popTops l rev t = ([], l, rev) := by
  unfold popTops
  rw [popTopsRev_noTop l.reverse rev t h]
  simp

theorem assignLoop_sorted : ∀ (ws : List Window) (t : Int) (rng : Rng)
    (curr s : Int) (out : List CompetitorWithOffset),
    1 ≤ t →
    (∀ w ∈ ws, 1 ≤ w.duration ∧ ∀ c ∈ w.competitors, c.origin = Origin.current) →
    curr ≤ s + 2*t - 1 →
    assignLoop ws t rng curr s = some out →
    offsetsSorted out ∧ (∀ p ∈ out, curr - t ≤ p.offset) := by
  intro ws
  induction ws with
  | nil =>
    intro t rng curr s out ht hw hinv h
    simp only [assignLoop, Option.some.injEq] at h
    rw [← h]
    exact ⟨trivial, by simp⟩
  | cons w rest ih =>
    intro t rng curr s out ht hw hinv h
    obtain ⟨hd, hcur⟩ := hw w (by simp)
    have hwr : ∀ x ∈ rest, 1 ≤ x.duration ∧
        ∀ c ∈ x.competitors, c.origin = Origin.current :=
      fun x hx => hw x (by simp [hx])
    simp only [assignLoop] at h
    by_cases hlen : w.competitors.length = 0
    · rw [if_pos hlen] at h
      have hinv2 : curr ≤ s + w.duration + 2*t - 1 := by omega
      exact ih t rng curr (s + w.duration) out ht hwr (by omega) h
    · rw [if_neg hlen] at h
      rcases hcl : w.competitors with _ | ⟨c0, cs0⟩
      · rw [hcl] at hlen; simp at hlen
      · rw [hcl] at h
        have hcur0 : ∀ c ∈ c0 :: cs0, c.origin = Origin.current := by
          rw [← hcl]; exact hcur
        -- no bottom pops
        rw [popBottoms_noBottom (c0 :: cs0) curr t
          (Or.inr ⟨c0, cs0, rfl, by rw [hcur0 c0 (by simp)]; simp⟩)] at h
        -- no top pops
        have hrevne : (c0 :: cs0).reverse ≠ [] := by simp
        rcases hrev : (c0 :: cs0).reverse with _ | ⟨y, ys⟩
        · exact absurd hrev hrevne
        · have hy : y ∈ c0 :: cs0 := by
            rw [← List.mem_reverse, hrev]; simp
          rw [popTops_noTop (c0 :: cs0) (s + w.duration - 1) t
            (Or.inr ⟨y, ys, hrev, by rw [hcur0 y hy]; simp⟩)] at h
          simp only at h
          simp only [if_true] at h
          -- the length guard is true
          have hlenpos : ((c0 :: cs0).length : Int) ≠ 0 := by
            simp
            omega
          rw [if_pos hlenpos] at h
          have hdvd : (((c0 :: cs0).length : Int) + 1) ≠ 0 := by positivity
          rw [checkedDivMod, if_neg hdvd] at h
          simp only at h
          -- the space and the spacing are nonnegative
          set n : Int := ((c0 :: cs0).length : Int) with hn
          have hnpos : 1 ≤ n := by
            rw [hn]
            simp
          set space : Int := s + w.duration - 1 + t - (curr - t) with hspace
          have hspacepos : w.duration ≤ space := by omega
          set sp : Int := space.tdiv (n + 1) with hsp
          have hsppos : 0 ≤ sp := by
            rw [hsp]
            exact Int.tdiv_nonneg (by omega) (by omega)
          have hspmul : (n + 1) * sp ≤ space := by
            rw [hsp, Int.tdiv_eq_ediv (by omega) (by omega)]
            rw [mul_comm]
            exact Int.ediv_mul_le space (by omega)
          rw [assignCurrents_noJitter (c0 :: cs0) (curr - t) sp
            (space.tmod (n + 1)) n rng hcur0] at h
          simp only at h
          -- the final cursor of this window
          set currL : Int := curr - t + ((c0 :: cs0).length : Int) * sp with hcurrL
          have hcurrL_ub : currL ≤ s + w.duration - 1 + t := by
            have : (↑(c0 :: cs0).length : Int) * sp ≤ space := by
              calc (↑(c0 :: cs0).length : Int) * sp = n * sp := by rw [hn]
                _ ≤ (n + 1) * sp := by nlinarith
                _ ≤ space := hspmul
            omega
          split at h
          · exact absurd h (by simp)
          · rename_i tail hrec
            simp only [Option.some.injEq] at h
            have hcurr4 : max (currL + t) (s + w.duration) ≤
                (s + w.duration) + 2*t - 1 := by
              simp only [max_le_iff]
              omega
            have htails := ih t rng (max (currL + t) (s + w.duration))
              (s + w.duration) tail ht hwr (by omega) hrec
            have hpairs_sorted := mkPairs_sorted (c0 :: cs0) (curr - t) sp hsppos
            have hpairs_lb := mkPairs_lb (c0 :: cs0) (curr - t) sp hsppos
            have hpairs_ub := mkPairs_ub (c0 :: cs0) (curr - t) sp hsppos
            rw [← h]
            simp only [List.nil_append]
            constructor
            · refine offsetsSorted_append _ _ hpairs_sorted htails.1 ?_
              intro p hp q hq
              have h1 : p.offset ≤ currL := by
                have := hpairs_ub p hp
                rw [hcurrL]
                omega
              have h2 : max (currL + t) (s + w.duration) - t ≤ q.offset :=
                htails.2 q hq
              have h3 : currL ≤ max (currL + t) (s + w.duration) - t := by
                have := le_max_left (currL + t) (s + w.duration)
                omega
              omega
            · intro p hp
              rcases List.mem_append.mp hp with hp | hp
              · have := hpairs_lb p hp
                omega
              · have h2 := htails.2 p hp
                have h3 : curr - t ≤ max (currL + t) (s + w.duration) - t := by
                  have h4 : curr - t ≤ currL := by
                    rw [hcurrL]
                    have h5 : 0 ≤ (↑(c0 :: cs0).length : Int) * sp := by positivity
                    omega
                  have := le_max_left (currL + t) (s + w.duration)
                  omega
                omega

theorem durations_of_sim : ∀ {ws' ws : List Window},
    List.Forall₂ WinSim ws' ws → (∀ w ∈ ws, 1 ≤ w.duration) →
    ∀ w' ∈ ws', 1 ≤ w'.duration := by
  intro ws' ws h hd
  induction h with
  | nil => intro w' hw'; exact absurd hw' (by simp)
  | @cons x y l' l hw hl ih =>
    intro w' hw'
    rcases List.mem_cons.mp hw' with hw' | hw'
    · subst hw'
      rw [hw.1]
      exact hd y (by simp)
    · exact ih (fun u hu => hd u (by simp [hu])) w' hw'

/-- C4 amended: the list returned by `generate_startlist` is sorted by
offset (non-decreasing) whenever no competitor is ever anchored — in
particular on the fast path, where stabilization is skipped, with all
input tags unanchored, a positive threshold and positive durations.  In
general (see the counterexample) top-anchored competitors are pushed
immediately in reverse-chronological order before the unanchored
competitors of their window, so the entry point's result is not in offset
order and the caller has to sort it (as `main` does). -/
theorem c4_sorted_on_fast_path (ws : List Window) (t m : Int) (fuel : Nat)
    (rng : Rng) (res : List CompetitorWithOffset)
    (ht : 1 ≤ t)
    (hdur : ∀ w ∈ ws, 1 ≤ w.duration)
    (hcur : AllCurrent ws)
    (hfast : rustDivCeil (sumDur ws) (totalCountInt ws) ≤ t)
    (h : generateStartlist fuel rng ws t m = some res) :
    offsetsSorted res := by
  rcases hsh : shuffleWindows ws rng with ⟨ws1, rng1⟩
  have hsim := shuffleWindows_sim ws rng
  rw [hsh] at hsim
  have hcur1 : AllCurrent ws1 := allCurrent_of_sim hsim hcur
  have hdur1 : ∀ w ∈ ws1, 1 ≤ w.duration := durations_of_sim hsim hdur
  have hfast1 : rustDivCeil (sumDur ws1) (totalCountInt ws1) ≤ t := by
    rw [sumDur_of_sim hsim, totalCountInt, totalCount_of_sim hsim]
    exact hfast
  simp only [generateStartlist, hsh] at h
  by_cases hng : totalCountInt ws1 ≤ 0
  · rw [if_pos hng] at h
    simp only [Option.some.injEq] at h
    rw [← h]
    exact trivial
  · rw [if_neg hng] at h
    rw [stabPhase, if_pos hfast1] at h
    simp only at h
    unfold assignOffsets at h
    exact (assignLoop_sorted ws1 t rng1 0 0 res ht
      (fun w hw => ⟨hdur1 w hw, hcur1 w hw⟩) (by omega) h).1

theorem c4_sorted_on_fast_path_witness :
    1 ≤ (3 : Int) ∧ (∀ w ∈ [(⟨6, [cmpA, cmpB]⟩ : Window)], 1 ≤ w.duration) ∧
    AllCurrent [(⟨6, [cmpA, cmpB]⟩ : Window)] ∧
    rustDivCeil (sumDur [(⟨6, [cmpA, cmpB]⟩ : Window)])
      (totalCountInt [(⟨6, [cmpA, cmpB]⟩ : Window)]) ≤ 3 ∧
    offsetsSorted ((generateStartlist 0 rngZero [(⟨6, [cmpA, cmpB]⟩ : Window)] 3 2).getD []) :=
  ⟨by decide, by decide, by decide, by decide,
    c4_sorted_on_fast_path [⟨6, [cmpA, cmpB]⟩] 3 2 0 rngZero
      ((generateStartlist 0 rngZero [(⟨6, [cmpA, cmpB]⟩ : Window)] 3 2).getD [])
      (by decide) (by decide) (by decide) (by decide) rfl⟩
